import Mathlib

/-
Verification of the ImageGenie block-transform engine (src/ImageGenie.py).

The four transform functions pixelate_image, dot_mosaic_image,
grayscale_image and invert_image are embedded shallowly:

* an Image is a width × height grid of RGB pixels (Nat channels; real
  images keep every channel below 256, captured by Image.Valid);
* Python's range(start, stop, step) is pyRange, with Python's length
  formula for positive and negative steps;
* PIL's Image.crop pads regions outside the source image with the zero
  fill colour (black) and getdata lists the cropped block row-major:
  getpx / cropPixels;
* PIL's ImageDraw.rectangle fills the box inclusive of both corners:
  drawRect;
* ImageDraw.ellipse is external library code whose exact rasterisation is
  not part of this repository; drawEllipse models it from the spec
  (all pixels with squared distance from the centre at most radius²);
* ImageOps.grayscale is Pillow's documented ITU-R 601-2 luma transform
  (fixed-point coefficients 19595/38470/7471 with rounding offset 32768,
  denominator 65536) and ImageOps.invert maps every channel c to 255 - c.

pixelateRun / dotMosaicRun / grayscaleRun / invertRun thread the state
pair (source image, output image) through the loops exactly as the
Python code does: every draw call writes to the freshly allocated output
and the source component is only read, which is what the no-mutation
claims are about.
-/

set_option maxHeartbeats 1000000

/-- One RGB pixel: three 8-bit channels, modelled as Nat. -/
structure RGB where
  r : Nat
  g : Nat
  b : Nat
deriving DecidableEq, Repr

/-- The zero fill colour of a freshly allocated RGB image (and of the
padding PIL's crop produces outside the source bounds). -/
def black : RGB := ⟨0, 0, 0⟩

/-- The background colour used by dot_mosaic_image. -/
def white : RGB := ⟨255, 255, 255⟩

/-- A raster image: dimensions plus a pixel function.  Only coordinates
with x < width and y < height are meaningful. -/
structure Image where
  width : Nat
  height : Nat
  pix : Nat → Nat → RGB

/-- Channels of a real 8-bit image never exceed 255. -/
def Image.Valid (a : Image) : Prop :=
  ∀ x, x < a.width → ∀ y, y < a.height →
    (a.pix x y).r ≤ 255 ∧ (a.pix x y).g ≤ 255 ∧ (a.pix x y).b ≤ 255

/-- Two images agree pixel-for-pixel: same dimensions and equal pixels at
every in-bounds coordinate. -/
def Image.Sim (a b : Image) : Prop :=
  a.width = b.width ∧ a.height = b.height ∧
    ∀ x, x < a.width → ∀ y, y < a.height → a.pix x y = b.pix x y

instance (a : Image) : Decidable a.Valid := by
  unfold Image.Valid; infer_instance

instance (a b : Image) : Decidable (a.Sim b) := by
  unfold Image.Sim; infer_instance

/-- Number of elements of Python's range(start, stop, step): the count of
ceil((stop-start)/step) clamped at zero for a positive step, the mirrored
formula for a negative step, and zero otherwise (Python raises on step 0;
no call site of the embedded code uses step 0). -/
def pyRangeLen (start stop step : Int) : Nat :=
  if 0 < step then ((stop - start + step - 1) / step).toNat
  else if step < 0 then ((start - stop + (-step) - 1) / (-step)).toNat
  else 0

/-- Python's range(start, stop, step) as a list. -/
def pyRange (start stop step : Int) : List Int :=
  (List.range (pyRangeLen start stop step)).map (fun i : Nat => start + step * (i : Int))

/-- Reading a source pixel the way PIL's Image.crop does: coordinates
outside the image bounds yield the zero (black) fill value. -/
def getpx (img : Image) (x y : Int) : RGB :=
  if 0 ≤ x ∧ x < (img.width : Int) ∧ 0 ≤ y ∧ y < (img.height : Int) then
    img.pix x.toNat y.toNat
  else black

/-- list(block.getdata()) for block = image.crop((x, y, x+w, y+h)):
the w × h block at origin (x, y), row-major, black-padded where the box
leaves the image. -/
def cropPixels (img : Image) (x y : Int) (w h : Nat) : List RGB :=
  (List.range h).flatMap (fun dy : Nat =>
    (List.range w).map (fun dx : Nat => getpx img (x + (dx : Int)) (y + (dy : Int))))

/-- tuple(sum(channel) // num_pixels for channel in zip(*pixels)): the
per-channel floor mean of a pixel list. -/
def avgColor (pixels : List RGB) : RGB :=
  ⟨(pixels.map RGB.r).sum / pixels.length,
   (pixels.map RGB.g).sum / pixels.length,
   (pixels.map RGB.b).sum / pixels.length⟩

/-- The avg_color both loop bodies compute for the block with origin
(x, y): the floor mean of the padded p × p crop. -/
def cellAvg (img : Image) (p x y : Int) : RGB :=
  avgColor (cropPixels img x y p.toNat p.toNat)

/-- draw.rectangle(box, fill=c) in PIL: both corners of the box are
inclusive; the canvas clips the rest (out-of-canvas coordinates of the
pixel function are not meaningful). -/
def drawRect (img : Image) (x0 y0 x1 y1 : Int) (c : RGB) : Image :=
  ⟨img.width, img.height, fun px py =>
    if x0 ≤ (px : Int) ∧ (px : Int) ≤ x1 ∧ y0 ≤ (py : Int) ∧ (py : Int) ≤ y1 then c
    else img.pix px py⟩

/-- Modelled from the spec: draw.ellipse(box, fill=c) is PIL library code
not part of this repository; following the spec's words, the filled
circle with centre (cx, cy) and radius rad colours exactly the pixels
whose squared distance from the centre is at most rad². -/
def drawEllipse (img : Image) (cx cy rad : Int) (c : RGB) : Image :=
  ⟨img.width, img.height, fun px py =>
    if ((px : Int) - cx) ^ 2 + ((py : Int) - cy) ^ 2 ≤ rad ^ 2 then c
    else img.pix px py⟩

/-- pixelate_image(image, pixel_size=p): over each block origin produced
by the two range loops, crop the (padded) p × p block, average it and
fill the rectangle (x, y, x+p, y+p) with the average on a freshly
allocated black canvas of the input's dimensions. -/
def pixelate (img : Image) (p : Int) : Image :=
  (pyRange 0 (img.height : Int) p).foldl (fun acc y =>
    (pyRange 0 (img.width : Int) p).foldl (fun acc2 x =>
      drawRect acc2 x y (x + p) (y + p) (cellAvg img p x y)) acc)
    ⟨img.width, img.height, fun _ _ => black⟩

/-- dot_mosaic_image(image, pixel_size=p): same loops and averages as
pixelate, but on a white canvas, drawing for each block the filled circle
with centre (x + p//2, y + p//2) and radius p//2 (Python's floor
division) in the block's average colour. -/
def dotMosaic (img : Image) (p : Int) : Image :=
  (pyRange 0 (img.height : Int) p).foldl (fun acc y =>
    (pyRange 0 (img.width : Int) p).foldl (fun acc2 x =>
      drawEllipse acc2 (x + Int.fdiv p 2) (y + Int.fdiv p 2) (Int.fdiv p 2)
        (cellAvg img p x y)) acc)
    ⟨img.width, img.height, fun _ _ => white⟩

/-- pixelate_image with the state pair (source, output) threaded through
the loops: every iteration reads the source component (crop) and draws on
the output component only. -/
def pixelateRun (img : Image) (p : Int) : Image × Image :=
  (pyRange 0 (img.height : Int) p).foldl (fun st y =>
    (pyRange 0 (img.width : Int) p).foldl (fun st2 x =>
      (st2.1, drawRect st2.2 x y (x + p) (y + p) (cellAvg st2.1 p x y))) st)
    (img, ⟨img.width, img.height, fun _ _ => black⟩)

/-- dot_mosaic_image with the state pair (source, output) threaded through
the loops. -/
def dotMosaicRun (img : Image) (p : Int) : Image × Image :=
  (pyRange 0 (img.height : Int) p).foldl (fun st y =>
    (pyRange 0 (img.width : Int) p).foldl (fun st2 x =>
      (st2.1, drawEllipse st2.2 (x + Int.fdiv p 2) (y + Int.fdiv p 2) (Int.fdiv p 2)
        (cellAvg st2.1 p x y))) st)
    (img, ⟨img.width, img.height, fun _ _ => white⟩)

/-- Pillow's RGB-to-luma conversion (ITU-R 601-2, fixed point), used by
ImageOps.grayscale via convert to mode L. -/
def grayLuma (c : RGB) : Nat :=
  (19595 * c.r + 38470 * c.g + 7471 * c.b + 32768) / 65536

/-- grayscale_image(image): ImageOps.grayscale followed by convert back
to RGB, so every pixel carries its luma on all three channels. -/
def grayscale (img : Image) : Image :=
  ⟨img.width, img.height, fun x y =>
    ⟨grayLuma (img.pix x y), grayLuma (img.pix x y), grayLuma (img.pix x y)⟩⟩

/-- grayscale_image as a (source, output) pair: the function performs no
write to its input. -/
def grayscaleRun (img : Image) : Image × Image := (img, grayscale img)

/-- invert_image(image): ImageOps.invert maps every channel c to 255 - c. -/
def invert (img : Image) : Image :=
  ⟨img.width, img.height, fun x y =>
    ⟨255 - (img.pix x y).r, 255 - (img.pix x y).g, 255 - (img.pix x y).b⟩⟩

/-- invert_image as a (source, output) pair: the function performs no
write to its input. -/
def invertRun (img : Image) : Image × Image := (img, invert img)

/-- The block origins (x, y) both loop nests visit, in draw order
(row-major: y outer, x inner). -/
def fills (w h : Nat) (p : Int) : List (Int × Int) :=
  (pyRange 0 (h : Int) p).flatMap (fun y => (pyRange 0 (w : Int) p).map (fun x => (x, y)))

/-- How many of pixelate's rectangle fills write the pixel (px, py): the
fill of cell (x, y) covers the PIL-inclusive box [x, x+p] × [y, y+p]. -/
def fillCount (w h : Nat) (p : Int) (px py : Nat) : Nat :=
  ((fills w h p).filter (fun c =>
    decide (c.1 ≤ (px : Int) ∧ (px : Int) ≤ c.1 + p ∧
      c.2 ≤ (py : Int) ∧ (py : Int) ≤ c.2 + p))).length

/-- The pixel (px, py) lies in the dot of the cell with origin c: squared
distance from the centre (c + p//2, c + p//2) at most (p//2)². -/
def inCircle (p : Int) (c : Int × Int) (px py : Nat) : Prop :=
  ((px : Int) - (c.1 + Int.fdiv p 2)) ^ 2 + ((py : Int) - (c.2 + Int.fdiv p 2)) ^ 2
    ≤ (Int.fdiv p 2) ^ 2

instance (p : Int) (c : Int × Int) (px py : Nat) : Decidable (inCircle p c px py) := by
  unfold inCircle; infer_instance

/-- Length of the clipped interval [x, min (x + p) bound): the spec's
edge-clipped cell extent along one axis. -/
def clipLen (bound x p : Nat) : Nat := min (x + p) bound - x

/-- Modelled from the spec: per-channel sum over exactly the pixels of
the clipped box (x, y, min (x+p) width, min (y+p) height). -/
def clippedSum (f : RGB → Nat) (img : Image) (x y p : Nat) : Nat :=
  ((List.range (clipLen img.height y p)).map (fun dy =>
    ((List.range (clipLen img.width x p)).map (fun dx =>
      f (img.pix (x + dx) (y + dy)))).sum)).sum

/-- Modelled from the spec: the number of pixels of the clipped box. -/
def clippedCount (img : Image) (x y p : Nat) : Nat :=
  clipLen img.width x p * clipLen img.height y p

/-- Modelled from the spec: the clipped-box floor mean the spec claims
for each cell (sum of the channel over the cell's in-bounds pixels,
integer-divided by the count of those pixels). -/
def specCellAvg (img : Image) (x y p : Nat) : RGB :=
  ⟨clippedSum RGB.r img x y p / clippedCount img x y p,
   clippedSum RGB.g img x y p / clippedCount img x y p,
   clippedSum RGB.b img x y p / clippedCount img x y p⟩

/-- Number of grid cells along an axis of extent n with stride P:
ceil (n / P). -/
def cellCount (n P : Nat) : Nat := (n + P - 1) / P

/-- The empty 0 × 0 image. -/
def img0 : Image := ⟨0, 0, fun _ _ => black⟩

/-- A 1 × 1 image whose single pixel is white. -/
def imgW : Image := ⟨1, 1, fun _ _ => white⟩

/-- A 1 × 1 image with a mixed-channel test pixel. -/
def imgT : Image := ⟨1, 1, fun _ _ => ⟨3, 200, 255⟩⟩

-- Sanity checks of the embedding on concrete inputs.
example : pyRange 0 1 10 = [0] := by decide
example : pyRange 0 2 1 = [0, 1] := by decide
example : pyRange 0 5 (-3) = [] := by decide
example : cellAvg imgW 2 0 0 = ⟨63, 63, 63⟩ := by decide
example : cellAvg imgW 10 0 0 = ⟨2, 2, 2⟩ := by decide
example : (pixelate imgW 10).pix 0 0 = ⟨2, 2, 2⟩ := by decide
example : (dotMosaic imgW 10).pix 0 0 = white := by decide
example : fills 2 1 1 = [(0, 0), (1, 0)] := by decide
example : fillCount 2 1 1 1 0 = 2 := by decide
example : (grayscale imgT).pix 0 0 = ⟨147, 147, 147⟩ := by decide
example : (invert imgT).pix 0 0 = ⟨252, 55, 0⟩ := by decide

-- ------------------------------------------------------------------
-- Helper lemmas about pyRange
-- ------------------------------------------------------------------

lemma pyRangeLen_pos (n P : Nat) (hP : 1 ≤ P) :
    pyRangeLen 0 (n : Int) (P : Int) = cellCount n P := by
  unfold pyRangeLen cellCount
  rw [if_pos (by exact_mod_cast hP : (0 : Int) < (P : Int))]
  have h1 : ((n : Int) - 0 + (P : Int) - 1) = ((n + P - 1 : Nat) : Int) := by
    have h2 : (1 : Nat) ≤ n + P := by omega
    rw [Nat.cast_sub h2]
    push_cast
    ring
  rw [h1, ← Int.ofNat_ediv, Int.toNat_ofNat]

lemma pyRange_pos (n P : Nat) (hP : 1 ≤ P) :
    pyRange 0 (n : Int) (P : Int)
      = (List.range (cellCount n P)).map (fun i => ((P * i : Nat) : Int)) := by
  unfold pyRange
  rw [pyRangeLen_pos n P hP]
  apply List.map_congr_left
  intro i _
  push_cast
  ring

lemma lt_cellCount_iff (n P i : Nat) (hP : 1 ≤ P) :
    i < cellCount n P ↔ P * i < n := by
  unfold cellCount
  rw [Nat.lt_iff_add_one_le, Nat.le_div_iff_mul_le (by omega : 0 < P)]
  have h1 : (i + 1) * P = i * P + P := by ring
  have h2 : P * i = i * P := Nat.mul_comm P i
  omega

lemma pyRangeLen_neg (n : Nat) (p : Int) (hp : p ≤ -1) :
    pyRangeLen 0 (n : Int) p = 0 := by
  unfold pyRangeLen
  rw [if_neg (by omega : ¬ (0 : Int) < p), if_pos (by omega : p < 0)]
  apply Int.toNat_of_nonpos
  have hq : (0 : Int) < -p := by omega
  have hnum : (0 : Int) - (n : Int) + -p - 1 < -p := by
    have : (0 : Int) ≤ (n : Int) := Int.ofNat_nonneg n
    omega
  rcases le_or_lt 0 ((0 : Int) - (n : Int) + -p - 1) with h0 | h0
  · rw [Int.ediv_eq_zero_of_lt h0 hnum]
  · have h1 : ((0 : Int) - (n : Int) + -p - 1) / -p ≤ 0 / -p :=
      Int.ediv_le_ediv hq (le_of_lt h0)
    simpa using h1

lemma pyRange_neg (n : Nat) (p : Int) (hp : p ≤ -1) :
    pyRange 0 (n : Int) p = [] := by
  unfold pyRange
  rw [pyRangeLen_neg n p hp]
  rfl

-- ------------------------------------------------------------------
-- Generic fold lemmas
-- ------------------------------------------------------------------

lemma foldl_pres {α β γ : Type} (G : α → γ) (F : α → β → α) (L : List β) (a : α)
    (h : ∀ x b, b ∈ L → G (F x b) = G x) : G (L.foldl F a) = G a := by
  induction L generalizing a with
  | nil => rfl
  | cons b L ih =>
    rw [List.foldl_cons]
    rw [ih (F a b) (fun x c hc => h x c (List.mem_cons_of_mem b hc))]
    exact h a b (List.mem_cons_self b L)

lemma foldl_last {α : Type} (G : α → RGB) (F : α → Nat → α) (V : Nat → RGB)
    (cond : Nat → Prop) (K : Nat)
    (hT : ∀ a k, cond k → G (F a k) = V k)
    (hF : ∀ a k, ¬ cond k → G (F a k) = G a)
    (hK : cond K) (hAbove : ∀ m, K < m → ¬ cond m) :
    ∀ n, K < n → ∀ a, G ((List.range n).foldl F a) = V K := by
  intro n
  induction n with
  | zero => omega
  | succ n ih =>
    intro hn a
    rw [List.range_succ, List.foldl_append]
    simp only [List.foldl_cons, List.foldl_nil]
    rcases Nat.lt_or_ge K n with h | h
    · rw [hF _ n (hAbove n h)]
      exact ih h _
    · have hKn : K = n := by omega
      subst hKn
      exact hT _ K hK

lemma foldl_or {α β : Type} (G : α → RGB) (F : α → β → α) (Q : β → Prop) (V : β → RGB)
    (hstep : ∀ a b, G (F a b) = G a ∨ (Q b ∧ G (F a b) = V b)) :
    ∀ (L : List β) (a : α),
      G (L.foldl F a) = G a ∨ ∃ b ∈ L, Q b ∧ G (L.foldl F a) = V b := by
  intro L
  induction L with
  | nil => intro a; left; rfl
  | cons b L ih =>
    intro a
    rw [List.foldl_cons]
    rcases ih (F a b) with h | ⟨b2, hb2, hq, he⟩
    · rcases hstep a b with h2 | ⟨hq, h2⟩
      · left; rw [h, h2]
      · right; exact ⟨b, List.mem_cons_self b L, hq, by rw [h, h2]⟩
    · right; exact ⟨b2, List.mem_cons_of_mem b hb2, hq, he⟩

lemma foldl_flatMap {α β γ : Type} (F : α → γ → α) (l : List β) (f : β → List γ) :
    ∀ a, (l.flatMap f).foldl F a = l.foldl (fun acc b => (f b).foldl F acc) a := by
  induction l with
  | nil => intro a; rfl
  | cons x xs ih => intro a; simp only [List.flatMap_cons, List.foldl_append,
      List.foldl_cons, ih]

lemma foldl_pair {σ α β : Type} (F : σ → α → β → α) (l : List β) :
    ∀ (s : σ) (d : α),
      l.foldl (fun st c => (st.1, F st.1 st.2 c)) (s, d)
        = (s, l.foldl (fun acc c => F s acc c) d) := by
  induction l with
  | nil => intro s d; rfl
  | cons b L ih =>
    intro s d
    rw [List.foldl_cons, List.foldl_cons]
    exact ih s (F s d b)

lemma sum_flatMap_nat {β : Type} (l : List β) (f : β → List Nat) :
    (l.flatMap f).sum = (l.map (fun b => (f b).sum)).sum := by
  induction l with
  | nil => rfl
  | cons b L ih => simp only [List.flatMap_cons, List.sum_append, List.map_cons,
      List.sum_cons, ih]

-- ------------------------------------------------------------------
-- Structural lemmas about the transforms
-- ------------------------------------------------------------------

lemma pixelate_flat (img : Image) (p : Int) :
    pixelate img p
      = (fills img.width img.height p).foldl
          (fun acc c => drawRect acc c.1 c.2 (c.1 + p) (c.2 + p) (cellAvg img p c.1 c.2))
          ⟨img.width, img.height, fun _ _ => black⟩ := by
  unfold pixelate fills
  rw [foldl_flatMap]
  simp only [List.foldl_map]

lemma dotMosaic_flat (img : Image) (p : Int) :
    dotMosaic img p
      = (fills img.width img.height p).foldl
          (fun acc c => drawEllipse acc (c.1 + Int.fdiv p 2) (c.2 + Int.fdiv p 2)
            (Int.fdiv p 2) (cellAvg img p c.1 c.2))
          ⟨img.width, img.height, fun _ _ => white⟩ := by
  unfold dotMosaic fills
  rw [foldl_flatMap]
  simp only [List.foldl_map]

lemma pixelate_width (img : Image) (p : Int) : (pixelate img p).width = img.width := by
  rw [pixelate_flat]
  exact foldl_pres Image.width _ _ _ (fun x b _ => rfl)

lemma pixelate_height (img : Image) (p : Int) : (pixelate img p).height = img.height := by
  rw [pixelate_flat]
  exact foldl_pres Image.height _ _ _ (fun x b _ => rfl)

lemma dotMosaic_width (img : Image) (p : Int) : (dotMosaic img p).width = img.width := by
  rw [dotMosaic_flat]
  exact foldl_pres Image.width _ _ _ (fun x b _ => rfl)

lemma dotMosaic_height (img : Image) (p : Int) : (dotMosaic img p).height = img.height := by
  rw [dotMosaic_flat]
  exact foldl_pres Image.height _ _ _ (fun x b _ => rfl)

lemma cropPixels_length (img : Image) (x y : Int) (w h : Nat) :
    (cropPixels img x y w h).length = h * w := by
  unfold cropPixels
  rw [List.length_flatMap]
  induction h with
  | zero => simp
  | succ m ih =>
    rw [List.range_succ, List.map_append, List.sum_append]
    simp only [List.map_cons, List.map_nil, List.sum_cons, List.sum_nil,
      Function.comp, List.length_map, List.length_range, Nat.succ_mul] at ih ⊢
    omega

lemma mem_fills_of (w h P i j : Nat) (hP : 1 ≤ P) (hi : P * i < w) (hj : P * j < h) :
    (((P * i : Nat) : Int), ((P * j : Nat) : Int)) ∈ fills w h (P : Int) := by
  unfold fills
  rw [pyRange_pos h P hP, pyRange_pos w P hP]
  refine List.mem_flatMap.mpr ⟨((P * j : Nat) : Int), ?_, ?_⟩
  · exact List.mem_map.mpr ⟨j, List.mem_range.mpr ((lt_cellCount_iff h P j hP).mpr hj), rfl⟩
  · exact List.mem_map.mpr ⟨((P * i : Nat) : Int),
      List.mem_map.mpr ⟨i, List.mem_range.mpr ((lt_cellCount_iff w P i hP).mpr hi), rfl⟩, rfl⟩

lemma pixelateRun_eq (img : Image) (p : Int) :
    pixelateRun img p = (img, pixelate img p) := by
  unfold pixelateRun pixelate
  have hin : (fun (st : Image × Image) (y : Int) =>
        (pyRange 0 (img.width : Int) p).foldl (fun st2 x =>
          (st2.1, drawRect st2.2 x y (x + p) (y + p) (cellAvg st2.1 p x y))) st)
      = (fun (st : Image × Image) (y : Int) =>
        (st.1, (pyRange 0 (img.width : Int) p).foldl (fun acc x =>
          drawRect acc x y (x + p) (y + p) (cellAvg st.1 p x y)) st.2)) := by
    funext st y
    exact foldl_pair (fun s d x => drawRect d x y (x + p) (y + p) (cellAvg s p x y)) _ st.1 st.2
  rw [hin]
  exact foldl_pair (fun s d y => (pyRange 0 (img.width : Int) p).foldl (fun acc x =>
    drawRect acc x y (x + p) (y + p) (cellAvg s p x y)) d) _ img _

lemma dotMosaicRun_eq (img : Image) (p : Int) :
    dotMosaicRun img p = (img, dotMosaic img p) := by
  unfold dotMosaicRun dotMosaic
  have hin : (fun (st : Image × Image) (y : Int) =>
        (pyRange 0 (img.width : Int) p).foldl (fun st2 x =>
          (st2.1, drawEllipse st2.2 (x + Int.fdiv p 2) (y + Int.fdiv p 2) (Int.fdiv p 2)
            (cellAvg st2.1 p x y))) st)
      = (fun (st : Image × Image) (y : Int) =>
        (st.1, (pyRange 0 (img.width : Int) p).foldl (fun acc x =>
          drawEllipse acc (x + Int.fdiv p 2) (y + Int.fdiv p 2) (Int.fdiv p 2)
            (cellAvg st.1 p x y)) st.2)) := by
    funext st y
    exact foldl_pair (fun s d x => drawEllipse d (x + Int.fdiv p 2) (y + Int.fdiv p 2)
      (Int.fdiv p 2) (cellAvg s p x y)) _ st.1 st.2
  rw [hin]
  exact foldl_pair (fun s d y => (pyRange 0 (img.width : Int) p).foldl (fun acc x =>
    drawEllipse acc (x + Int.fdiv p 2) (y + Int.fdiv p 2) (Int.fdiv p 2)
      (cellAvg s p x y)) d) _ img _

lemma grayLuma_gray (L : Nat) : grayLuma ⟨L, L, L⟩ = L := by
  show (19595 * L + 38470 * L + 7471 * L + 32768) / 65536 = L
  omega

-- ------------------------------------------------------------------
-- The padded crop sums of the code versus the clipped sums of the spec
-- ------------------------------------------------------------------

lemma sum_range_if (p m : Nat) (g : Nat → Nat) (cond : Nat → Prop) [DecidablePred cond]
    (hm : m ≤ p) (h1 : ∀ k, k < m → cond k) (h2 : ∀ k, m ≤ k → k < p → ¬ cond k) :
    ((List.range p).map (fun k => if cond k then g k else 0)).sum
      = ((List.range m).map g).sum := by
  have hp : p = m + (p - m) := by omega
  rw [hp, List.range_add, List.map_append, List.sum_append]
  have e1 : (List.range m).map (fun k => if cond k then g k else 0)
      = (List.range m).map g := by
    apply List.map_congr_left
    intro k hk
    rw [if_pos (h1 k (List.mem_range.mp hk))]
  have e2 : ((List.range (p - m)).map (fun k : Nat => m + k)).map
        (fun k => if cond k then g k else 0)
      = (List.range (p - m)).map (fun _ => 0) := by
    rw [List.map_map]
    apply List.map_congr_left
    intro k hk
    have hk2 := List.mem_range.mp hk
    simp only [Function.comp]
    rw [if_neg (h2 (m + k) (by omega) (by omega))]
  rw [e1, e2]
  simp

lemma clipLen_le (bound x p : Nat) : clipLen bound x p ≤ p := by
  unfold clipLen
  omega

lemma crop_channel_sum (f : RGB → Nat) (hf : f black = 0) (img : Image) (x y p : Nat) :
    ((cropPixels img (x : Int) (y : Int) p p).map f).sum = clippedSum f img x y p := by
  unfold cropPixels clippedSum
  rw [List.map_flatMap, sum_flatMap_nat]
  have row : ∀ dy : Nat,
      (((List.range p).map (fun dx : Nat =>
        getpx img ((x : Int) + (dx : Int)) ((y : Int) + (dy : Int)))).map f).sum
      = (fun dy2 : Nat => if y + dy2 < img.height then
          ((List.range (clipLen img.width x p)).map
            (fun dx => f (img.pix (x + dx) (y + dy2)))).sum else 0) dy := by
    intro dy
    simp only []
    rw [List.map_map]
    by_cases hdy : y + dy < img.height
    · rw [if_pos hdy]
      have e : (List.range p).map (f ∘ fun dx : Nat =>
            getpx img ((x : Int) + (dx : Int)) ((y : Int) + (dy : Int)))
          = (List.range p).map (fun dx =>
            if x + dx < img.width then f (img.pix (x + dx) (y + dy)) else 0) := by
        apply List.map_congr_left
        intro dx _
        simp only [Function.comp]
        unfold getpx
        by_cases hdx : x + dx < img.width
        · rw [if_pos, if_pos hdx]
          · have ex : ((x : Int) + (dx : Int)).toNat = x + dx := by omega
            have ey : ((y : Int) + (dy : Int)).toNat = y + dy := by omega
            rw [ex, ey]
          · refine ⟨by omega, by exact_mod_cast hdx, by omega, by exact_mod_cast hdy⟩
        · rw [if_neg, if_neg hdx, hf]
          intro hcon
          exact hdx (by exact_mod_cast hcon.2.1)
      rw [e]
      apply sum_range_if p (clipLen img.width x p) _ _ (clipLen_le img.width x p)
      · intro k hk
        unfold clipLen at hk
        omega
      · intro k hk1 hk2
        unfold clipLen at hk1
        omega
    · rw [if_neg hdy]
      have e : (List.range p).map (f ∘ fun dx : Nat =>
            getpx img ((x : Int) + (dx : Int)) ((y : Int) + (dy : Int)))
          = (List.range p).map (fun _ => 0) := by
        apply List.map_congr_left
        intro dx _
        simp only [Function.comp]
        unfold getpx
        rw [if_neg, hf]
        intro hcon
        exact hdy (by exact_mod_cast hcon.2.2.2)
      rw [e]
      simp
  rw [List.map_congr_left (fun dy _ => row dy)]
  apply sum_range_if p (clipLen img.height y p) _ _ (clipLen_le img.height y p)
  · intro k hk
    unfold clipLen at hk
    omega
  · intro k hk1 hk2
    unfold clipLen at hk1
    omega

-- ------------------------------------------------------------------
-- Pixel-level behaviour of the draw primitives and of pixelate
-- ------------------------------------------------------------------

lemma drawRect_pix (img : Image) (x0 y0 x1 y1 : Int) (c : RGB) (px py : Nat) :
    (drawRect img x0 y0 x1 y1 c).pix px py
      = if x0 ≤ (px : Int) ∧ (px : Int) ≤ x1 ∧ y0 ≤ (py : Int) ∧ (py : Int) ≤ y1 then c
        else img.pix px py := rfl

lemma drawEllipse_pix (img : Image) (cx cy rad : Int) (c : RGB) (px py : Nat) :
    (drawEllipse img cx cy rad c).pix px py
      = if ((px : Int) - cx) ^ 2 + ((py : Int) - cy) ^ 2 ≤ rad ^ 2 then c
        else img.pix px py := rfl

lemma castAdd (a b : Nat) : ((a : Int) + (b : Int)) = ((a + b : Nat) : Int) := by
  push_cast
  ring

lemma pixelate_pix (img : Image) (P : Nat) (hP : 1 ≤ P) (px py : Nat)
    (hx : px < img.width) (hy : py < img.height) :
    (pixelate img (P : Int)).pix px py
      = cellAvg img (P : Int) ((P * (px / P) : Nat) : Int) ((P * (py / P) : Nat) : Int) := by
  have hP0 : 0 < P := hP
  have hIle : P * (px / P) ≤ px := Nat.mul_div_le px P
  have hIlt : px < P * (px / P) + P := by
    have h1 := Nat.div_add_mod px P
    have h2 := Nat.mod_lt px hP0
    omega
  have hJle : P * (py / P) ≤ py := Nat.mul_div_le py P
  have hJlt : py < P * (py / P) + P := by
    have h1 := Nat.div_add_mod py P
    have h2 := Nat.mod_lt py hP0
    omega
  have hIcw : px / P < cellCount img.width P :=
    (lt_cellCount_iff img.width P (px / P) hP).mpr (by omega)
  have hJch : py / P < cellCount img.height P :=
    (lt_cellCount_iff img.height P (py / P) hP).mpr (by omega)
  unfold pixelate
  rw [pyRange_pos img.height P hP, pyRange_pos img.width P hP, List.foldl_map]
  simp only [List.foldl_map]
  have hrow : ∀ (j : Nat) (a : Image), P * j ≤ py ∧ py ≤ P * j + P →
      ((List.range (cellCount img.width P)).foldl (fun acc2 i =>
        drawRect acc2 ((P * i : Nat) : Int) ((P * j : Nat) : Int)
          (((P * i : Nat) : Int) + (P : Int)) (((P * j : Nat) : Int) + (P : Int))
          (cellAvg img (P : Int) ((P * i : Nat) : Int) ((P * j : Nat) : Int))) a).pix px py
      = cellAvg img (P : Int) ((P * (px / P) : Nat) : Int) ((P * j : Nat) : Int) := by
    intro j a hcov
    have hT : ∀ (b : Image) (i : Nat), P * i ≤ px ∧ px ≤ P * i + P →
        (drawRect b ((P * i : Nat) : Int) ((P * j : Nat) : Int)
          (((P * i : Nat) : Int) + (P : Int)) (((P * j : Nat) : Int) + (P : Int))
          (cellAvg img (P : Int) ((P * i : Nat) : Int) ((P * j : Nat) : Int))).pix px py
        = cellAvg img (P : Int) ((P * i : Nat) : Int) ((P * j : Nat) : Int) := by
      intro b i hcnd
      rw [drawRect_pix, if_pos]
      refine ⟨by exact_mod_cast hcnd.1, ?_, by exact_mod_cast hcov.1, ?_⟩
      · rw [castAdd]
        exact_mod_cast hcnd.2
      · rw [castAdd]
        exact_mod_cast hcov.2
    have hF : ∀ (b : Image) (i : Nat), ¬ (P * i ≤ px ∧ px ≤ P * i + P) →
        (drawRect b ((P * i : Nat) : Int) ((P * j : Nat) : Int)
          (((P * i : Nat) : Int) + (P : Int)) (((P * j : Nat) : Int) + (P : Int))
          (cellAvg img (P : Int) ((P * i : Nat) : Int) ((P * j : Nat) : Int))).pix px py
        = b.pix px py := by
      intro b i hcnd
      rw [drawRect_pix, if_neg]
      intro hcon
      apply hcnd
      refine ⟨by exact_mod_cast hcon.1, ?_⟩
      have h2 := hcon.2.1
      rw [castAdd] at h2
      exact_mod_cast h2
    have hAbove : ∀ m, px / P < m → ¬ (P * m ≤ px ∧ px ≤ P * m + P) := by
      intro m hm hcnd
      have h1 : P * (px / P + 1) ≤ P * m := Nat.mul_le_mul_left P hm
      have h2 : P * (px / P + 1) = P * (px / P) + P := by ring
      omega
    exact foldl_last (fun b : Image => b.pix px py) _
      (fun i => cellAvg img (P : Int) ((P * i : Nat) : Int) ((P * j : Nat) : Int))
      (fun i => P * i ≤ px ∧ px ≤ P * i + P) (px / P)
      hT hF ⟨hIle, by omega⟩ hAbove (cellCount img.width P) hIcw a
  have hrowKeep : ∀ (j : Nat) (a : Image), ¬ (P * j ≤ py ∧ py ≤ P * j + P) →
      ((List.range (cellCount img.width P)).foldl (fun acc2 i =>
        drawRect acc2 ((P * i : Nat) : Int) ((P * j : Nat) : Int)
          (((P * i : Nat) : Int) + (P : Int)) (((P * j : Nat) : Int) + (P : Int))
          (cellAvg img (P : Int) ((P * i : Nat) : Int) ((P * j : Nat) : Int))) a).pix px py
      = a.pix px py := by
    intro j a hcov
    apply foldl_pres (fun b : Image => b.pix px py)
    intro b i _
    rw [drawRect_pix, if_neg]
    intro hcon
    apply hcov
    refine ⟨by exact_mod_cast hcon.2.2.1, ?_⟩
    have h2 := hcon.2.2.2
    rw [castAdd] at h2
    exact_mod_cast h2
  have hAboveOut : ∀ m, py / P < m → ¬ (P * m ≤ py ∧ py ≤ P * m + P) := by
    intro m hm hcnd
    have h1 : P * (py / P + 1) ≤ P * m := Nat.mul_le_mul_left P hm
    have h2 : P * (py / P + 1) = P * (py / P) + P := by ring
    omega
  exact foldl_last (fun b : Image => b.pix px py) _
    (fun j => cellAvg img (P : Int) ((P * (px / P) : Nat) : Int) ((P * j : Nat) : Int))
    (fun j => P * j ≤ py ∧ py ≤ P * j + P) (py / P)
    (fun a j hc => hrow j a hc) (fun a j hc => hrowKeep j a hc)
    ⟨hJle, by omega⟩ hAboveOut (cellCount img.height P) hJch _

lemma fillCount_pos (w h P : Nat) (hP : 1 ≤ P) (px py : Nat) (hx : px < w) (hy : py < h) :
    1 ≤ fillCount w h (P : Int) px py := by
  unfold fillCount
  have hP0 : 0 < P := hP
  have hIle : P * (px / P) ≤ px := Nat.mul_div_le px P
  have hIlt : px < P * (px / P) + P := by
    have h1 := Nat.div_add_mod px P
    have h2 := Nat.mod_lt px hP0
    omega
  have hJle : P * (py / P) ≤ py := Nat.mul_div_le py P
  have hJlt : py < P * (py / P) + P := by
    have h1 := Nat.div_add_mod py P
    have h2 := Nat.mod_lt py hP0
    omega
  have hm := mem_fills_of w h P (px / P) (py / P) hP (by omega) (by omega)
  have hcmem : (((P * (px / P) : Nat) : Int), ((P * (py / P) : Nat) : Int)) ∈
      (fills w h (P : Int)).filter (fun c =>
        decide (c.1 ≤ (px : Int) ∧ (px : Int) ≤ c.1 + (P : Int) ∧
          c.2 ≤ (py : Int) ∧ (py : Int) ≤ c.2 + (P : Int))) := by
    apply List.mem_filter.mpr
    refine ⟨hm, decide_eq_true ?_⟩
    show ((P * (px / P) : Nat) : Int) ≤ (px : Int) ∧
      (px : Int) ≤ ((P * (px / P) : Nat) : Int) + (P : Int) ∧
      ((P * (py / P) : Nat) : Int) ≤ (py : Int) ∧
      (py : Int) ≤ ((P * (py / P) : Nat) : Int) + (P : Int)
    refine ⟨by exact_mod_cast hIle, ?_, by exact_mod_cast hJle, ?_⟩
    · rw [castAdd]
      exact_mod_cast Nat.le_of_lt hIlt
    · rw [castAdd]
      exact_mod_cast Nat.le_of_lt hJlt
  exact List.length_pos.mpr (List.ne_nil_of_mem hcmem)

-- ------------------------------------------------------------------
-- Claim theorems
-- ------------------------------------------------------------------

/-- Claim C1, amended: for every image and every blockSize ≥ 1, the average
colour computed for the cell at (x, y) equals, per channel, the sum of the
channel over exactly the pixels inside the clipped box divided by blockSize²
(not by the clipped pixel count): the crop pads out-of-bounds positions with
black, so positions outside the image contribute nothing to the sums but are
counted in the divisor, which is always blockSize². -/
theorem claim_C1 (img : Image) (P : Nat) (hP : 1 ≤ P) (x y : Nat) :
    cellAvg img (P : Int) (x : Int) (y : Int)
      = ⟨clippedSum RGB.r img x y P / (P * P),
         clippedSum RGB.g img x y P / (P * P),
         clippedSum RGB.b img x y P / (P * P)⟩ := by
  unfold cellAvg avgColor
  have ht : ((P : Nat) : Int).toNat = P := rfl
  rw [ht, cropPixels_length, crop_channel_sum RGB.r rfl img x y P,
    crop_channel_sum RGB.g rfl img x y P, crop_channel_sum RGB.b rfl img x y P]

theorem claim_C1_witness :
    (1 : Nat) ≤ 1 ∧ cellAvg imgW ((1 : Nat) : Int) ((0 : Nat) : Int) ((0 : Nat) : Int)
      = ⟨clippedSum RGB.r imgW 0 0 1 / (1 * 1),
         clippedSum RGB.g imgW 0 0 1 / (1 * 1),
         clippedSum RGB.b imgW 0 0 1 / (1 * 1)⟩ :=
  ⟨by decide, claim_C1 imgW 1 (by decide) 0 0⟩

theorem claim_C1_counterexample :
    cellAvg imgW 2 0 0 = ⟨63, 63, 63⟩ ∧ specCellAvg imgW 0 0 2 = white ∧
      cellAvg imgW 2 0 0 ≠ specCellAvg imgW 0 0 2 := by
  refine ⟨by decide, by decide, by decide⟩

/-- Claim C2, amended: the fills are inclusive of the box's right/bottom edge
(PIL rectangle semantics), so the fill regions do not partition the image:
every in-bounds pixel is written by at least one fill, pixels on interior cell
boundaries by more than one, and the final colour of every in-bounds pixel is
the average colour of the unique cell containing it, because the later fill
overwrites the earlier one. -/
theorem claim_C2 (img : Image) (P : Nat) (hP : 1 ≤ P) (px py : Nat)
    (hx : px < img.width) (hy : py < img.height) :
    1 ≤ fillCount img.width img.height (P : Int) px py ∧
    (pixelate img (P : Int)).pix px py
      = cellAvg img (P : Int) ((P * (px / P) : Nat) : Int) ((P * (py / P) : Nat) : Int) :=
  ⟨fillCount_pos img.width img.height P hP px py hx hy,
   pixelate_pix img P hP px py hx hy⟩

theorem claim_C2_witness :
    (1 : Nat) ≤ 1 ∧ (1 ≤ fillCount imgW.width imgW.height ((1 : Nat) : Int) 0 0 ∧
      (pixelate imgW ((1 : Nat) : Int)).pix 0 0
        = cellAvg imgW ((1 : Nat) : Int) ((1 * (0 / 1) : Nat) : Int)
            ((1 * (0 / 1) : Nat) : Int)) :=
  ⟨by decide, claim_C2 imgW 1 (by decide) 0 0 (by decide) (by decide)⟩

theorem claim_C2_counterexample :
    fillCount 2 1 1 1 0 = 2 ∧ fillCount 2 1 1 1 0 ≠ 1 := by
  refine ⟨by decide, by decide⟩

/-- Claim C3, amended: for the 1 × 1 white image with blockSize 10 the grid
has exactly one cell covering the pixel and dot_mosaic_image returns a 1 × 1
white image, but pixelate_image returns a 1 × 1 image whose pixel is (2,2,2),
not white: the 10 × 10 crop pads the white pixel with 99 black pixels and
255 // 100 = 2. -/
theorem claim_C3 :
    fills 1 1 10 = [((0 : Int), (0 : Int))]
    ∧ (pixelate imgW 10).width = 1 ∧ (pixelate imgW 10).height = 1
    ∧ (pixelate imgW 10).pix 0 0 = ⟨2, 2, 2⟩
    ∧ (dotMosaic imgW 10).width = 1 ∧ (dotMosaic imgW 10).height = 1
    ∧ (dotMosaic imgW 10).pix 0 0 = white := by
  refine ⟨by decide, by decide, by decide, by decide, by decide, by decide, by decide⟩

theorem claim_C3_counterexample : (pixelate imgW 10).pix 0 0 ≠ white := by decide

/-- Claim C4: dot_mosaic_image starts from an all-white background and draws,
for each cell origin (x, y), a filled circle of radius blockSize // 2 centred
at (x + blockSize//2, y + blockSize//2) in the cell's average colour, the
circle colouring exactly the pixels whose squared distance from the centre is
at most radius² (drawEllipse, modelled from the spec); every pixel outside all
circles is white in the output, and every other pixel carries the average
colour of a cell whose circle contains it. -/
theorem claim_C4 (img : Image) (P : Nat) (hP : 1 ≤ P) :
    (∀ px py : Nat,
      (∀ c ∈ fills img.width img.height (P : Int), ¬ inCircle (P : Int) c px py) →
      (dotMosaic img (P : Int)).pix px py = white)
    ∧ (∀ px py : Nat,
      (dotMosaic img (P : Int)).pix px py = white
      ∨ ∃ c ∈ fills img.width img.height (P : Int), inCircle (P : Int) c px py ∧
          (dotMosaic img (P : Int)).pix px py = cellAvg img (P : Int) c.1 c.2) := by
  constructor
  · intro px py hout
    rw [dotMosaic_flat]
    apply foldl_pres (fun b : Image => b.pix px py)
    intro b c hc
    have hnc := hout c hc
    unfold inCircle at hnc
    rw [drawEllipse_pix, if_neg hnc]
  · intro px py
    rw [dotMosaic_flat]
    have hstep : ∀ (a : Image) (c : Int × Int),
        (drawEllipse a (c.1 + Int.fdiv (P : Int) 2) (c.2 + Int.fdiv (P : Int) 2)
          (Int.fdiv (P : Int) 2) (cellAvg img (P : Int) c.1 c.2)).pix px py = a.pix px py
        ∨ (inCircle (P : Int) c px py ∧
          (drawEllipse a (c.1 + Int.fdiv (P : Int) 2) (c.2 + Int.fdiv (P : Int) 2)
            (Int.fdiv (P : Int) 2) (cellAvg img (P : Int) c.1 c.2)).pix px py
          = cellAvg img (P : Int) c.1 c.2) := by
      intro a c
      by_cases hc : inCircle (P : Int) c px py
      · right
        refine ⟨hc, ?_⟩
        unfold inCircle at hc
        rw [drawEllipse_pix, if_pos hc]
      · left
        unfold inCircle at hc
        rw [drawEllipse_pix, if_neg hc]
    exact foldl_or (fun b : Image => b.pix px py)
      (fun acc (c : Int × Int) => drawEllipse acc (c.1 + Int.fdiv (P : Int) 2)
        (c.2 + Int.fdiv (P : Int) 2) (Int.fdiv (P : Int) 2) (cellAvg img (P : Int) c.1 c.2))
      (fun c => inCircle (P : Int) c px py)
      (fun c => cellAvg img (P : Int) c.1 c.2)
      hstep (fills img.width img.height (P : Int))
      ⟨img.width, img.height, fun _ _ => white⟩

theorem claim_C4_witness :
    (1 : Nat) ≤ 1 ∧ (dotMosaic imgW ((1 : Nat) : Int)).pix 5 5 = white :=
  ⟨by decide, (claim_C4 imgW 1 (by decide)).1 5 5 (by decide)⟩

/-- Claim C5: for every RGB image (all channels at most 255), applying the
invert transform twice returns the original image pixel-for-pixel, since
every channel c is mapped to 255 - c and 255 - (255 - c) = c. -/
theorem claim_C5 (img : Image) (hv : img.Valid) :
    Image.Sim (invert (invert img)) img := by
  refine ⟨rfl, rfl, ?_⟩
  intro x hx y hy
  obtain ⟨h1, h2, h3⟩ := hv x hx y hy
  have e : (invert (invert img)).pix x y
      = ⟨255 - (255 - (img.pix x y).r), 255 - (255 - (img.pix x y).g),
         255 - (255 - (img.pix x y).b)⟩ := rfl
  rw [e]
  conv_rhs => rw [show img.pix x y
    = ⟨(img.pix x y).r, (img.pix x y).g, (img.pix x y).b⟩ from rfl]
  rw [RGB.mk.injEq]
  refine ⟨by omega, by omega, by omega⟩

theorem claim_C5_witness : imgT.Valid ∧ Image.Sim (invert (invert imgT)) imgT :=
  ⟨by decide, claim_C5 imgT (by decide)⟩

/-- Claim C6: applying the grayscale transform twice yields exactly the image
obtained by applying it once, pixel for pixel: the luma of a gray pixel
(L, L, L) is L again, because the fixed-point coefficients sum to the
denominator 65536 and the rounding offset is absorbed by the floor. -/
theorem claim_C6 (img : Image) :
    Image.Sim (grayscale (grayscale img)) (grayscale img) := by
  refine ⟨rfl, rfl, ?_⟩
  intro x _ y _
  have e : (grayscale (grayscale img)).pix x y
      = ⟨grayLuma ⟨grayLuma (img.pix x y), grayLuma (img.pix x y), grayLuma (img.pix x y)⟩,
         grayLuma ⟨grayLuma (img.pix x y), grayLuma (img.pix x y), grayLuma (img.pix x y)⟩,
         grayLuma ⟨grayLuma (img.pix x y), grayLuma (img.pix x y), grayLuma (img.pix x y)⟩⟩ := rfl
  rw [e, grayLuma_gray]
  rfl

/-- Claim C7: for every input image and every blockSize ≥ 1, each of the four
transforms returns an image whose width and height equal the input's. -/
theorem claim_C7 (img : Image) (p : Int) (hp : 1 ≤ p) :
    (pixelate img p).width = img.width ∧ (pixelate img p).height = img.height
    ∧ (dotMosaic img p).width = img.width ∧ (dotMosaic img p).height = img.height
    ∧ (grayscale img).width = img.width ∧ (grayscale img).height = img.height
    ∧ (invert img).width = img.width ∧ (invert img).height = img.height :=
  ⟨pixelate_width img p, pixelate_height img p, dotMosaic_width img p,
   dotMosaic_height img p, rfl, rfl, rfl, rfl⟩

theorem claim_C7_witness :
    (1 : Int) ≤ 2 ∧
    ((pixelate imgW 2).width = imgW.width ∧ (pixelate imgW 2).height = imgW.height
    ∧ (dotMosaic imgW 2).width = imgW.width ∧ (dotMosaic imgW 2).height = imgW.height
    ∧ (grayscale imgW).width = imgW.width ∧ (grayscale imgW).height = imgW.height
    ∧ (invert imgW).width = imgW.width ∧ (invert imgW).height = imgW.height) :=
  ⟨by decide, claim_C7 imgW 2 (by decide)⟩

/-- Claim C8: none of the four transforms mutates its input: in the
state-threaded embeddings the source component of the loop state is returned
unchanged, dimensions and pixels identical to the value passed in. -/
theorem claim_C8 (img : Image) (p : Int) :
    (pixelateRun img p).1 = img ∧ (dotMosaicRun img p).1 = img
    ∧ (grayscaleRun img).1 = img ∧ (invertRun img).1 = img := by
  refine ⟨?_, ?_, rfl, rfl⟩
  · rw [pixelateRun_eq]
  · rw [dotMosaicRun_eq]

/-- Claim C9: for every image (a 0 × 0 one included) and every pixel_size ≥ 1,
the divisor num_pixels is pixel_size² ≥ 1 at every loop iteration of both
block transforms (an out-of-bounds crop box yields a full-size padded block,
never an empty one), so the average never divides by zero; both functions are
total and return a 0 × 0 image for a 0 × 0 input. -/
theorem claim_C9 (img : Image) (p : Int) (hp : 1 ≤ p) :
    (∀ c ∈ fills img.width img.height p,
      (cropPixels img c.1 c.2 p.toNat p.toNat).length = p.toNat * p.toNat
      ∧ 1 ≤ (cropPixels img c.1 c.2 p.toNat p.toNat).length)
    ∧ (img.width = 0 → img.height = 0 →
        (pixelate img p).width = 0 ∧ (pixelate img p).height = 0
        ∧ (dotMosaic img p).width = 0 ∧ (dotMosaic img p).height = 0) := by
  have hp1 : 0 < p.toNat := by omega
  constructor
  · intro c _
    have hl := cropPixels_length img c.1 c.2 p.toNat p.toNat
    exact ⟨hl, by rw [hl]; exact Nat.mul_pos hp1 hp1⟩
  · intro hw hh
    refine ⟨?_, ?_, ?_, ?_⟩
    · rw [pixelate_width, hw]
    · rw [pixelate_height, hh]
    · rw [dotMosaic_width, hw]
    · rw [dotMosaic_height, hh]

theorem claim_C9_witness :
    (1 : Int) ≤ 2 ∧
    ((∀ c ∈ fills img0.width img0.height 2,
        (cropPixels img0 c.1 c.2 (2 : Int).toNat (2 : Int).toNat).length
          = (2 : Int).toNat * (2 : Int).toNat
        ∧ 1 ≤ (cropPixels img0 c.1 c.2 (2 : Int).toNat (2 : Int).toNat).length)
      ∧ (img0.width = 0 → img0.height = 0 →
          (pixelate img0 2).width = 0 ∧ (pixelate img0 2).height = 0
          ∧ (dotMosaic img0 2).width = 0 ∧ (dotMosaic img0 2).height = 0)) :=
  ⟨by decide, claim_C9 img0 2 (by decide)⟩

/-- Claim C10: for every input image and every pixel_size ≤ -1, the block
loops execute zero iterations (Python's range is empty for a negative step
here), no error is raised, and pixelate_image returns its freshly allocated
all-black image while dot_mosaic_image returns its all-white image, both of
the input's dimensions. -/
theorem claim_C10 (img : Image) (p : Int) (hp : p ≤ -1) :
    pyRange 0 (img.height : Int) p = []
    ∧ (pixelate img p).width = img.width ∧ (pixelate img p).height = img.height
    ∧ (∀ x y : Nat, (pixelate img p).pix x y = black)
    ∧ (dotMosaic img p).width = img.width ∧ (dotMosaic img p).height = img.height
    ∧ (∀ x y : Nat, (dotMosaic img p).pix x y = white) := by
  have he := pyRange_neg img.height p hp
  refine ⟨he, ?_⟩
  unfold pixelate dotMosaic
  rw [he]
  exact ⟨rfl, rfl, fun _ _ => rfl, rfl, rfl, fun _ _ => rfl⟩

theorem claim_C10_witness :
    ((-1 : Int) ≤ -1) ∧ (pixelate imgW (-1)).pix 0 0 = black
      ∧ (dotMosaic imgW (-1)).pix 0 0 = white :=
  ⟨by decide, (claim_C10 imgW (-1) (by decide)).2.2.2.1 0 0,
   (claim_C10 imgW (-1) (by decide)).2.2.2.2.2.2 0 0⟩
